import Mathlib

/-!
Verification development for the cluster-detection and cluster-analysis
module of the drug-gene interaction project (src/helpers/Clustering.py).

The Python functions are shallowly embedded as Lean functions:
graphs become a structure with a node list, a Boolean adjacency
predicate and per-node attributes; Python dictionaries become
association lists; Python exceptions become an Except monad with an
explicit error type; float thresholds and frequencies become exact
rationals.
-/

set_option maxRecDepth 8000

/-- Gene identifiers: gene symbol strings from the drug-gene JSON file. -/
abbrev Gene := String

/-- Graph nodes are identified by natural numbers (opaque node ids). -/
abbrev Node := Nat

/-- Attributes stored on a graph node: the drug `label` and the optional
genes attribute.  The `genes` field is `none` when the node does not carry
a genes attribute at all (an unenriched node), mirroring the dictionary
of node attributes in networkx. -/
structure NodeData where
  label : String
  genes : Option (List Gene)

/-- A graph value as used by Clustering.py: a finite list of nodes (in
insertion order), a Boolean adjacency predicate and per-node attributes. -/
structure Graph where
  nodes : List Node
  adj : Node → Node → Bool
  attr : Node → NodeData

/-- Error outcomes a run can produce. `valueError` models Python's builtin
ValueError (raised by max() on an empty sequence and by the spectral
library on too few samples); `keyError` models builtin KeyError.
The constructors `emptyGraphError` and `insufficientNodesError` exist only
so the design document's named error classes can be stated and compared
against: no such exception classes are defined anywhere in the code. -/
inductive PyError where
  | valueError
  | keyError
  | emptyGraphError
  | insufficientNodesError
  deriving DecidableEq

/-- First-match lookup in an association list keyed by drug label, with an
optional genes list as payload: `some none` models a mapping entry whose
JSON object lacks the genes key. Models Python dict indexing. -/
def listLookup : List (String × Option (List Gene)) → String → Option (Option (List Gene))
  | [], _ => none
  | (k, v) :: rest, key => if k = key then some v else listLookup rest key

/-- Embeds `drug_gene_data.get(drug_label, {}).get("genes", [])`: a missing
drug entry or a missing genes key both yield the empty list. -/
def geneLookup (m : List (String × Option (List Gene))) (key : String) : List Gene :=
  match listLookup m key with
  | some (some gs) => gs
  | some none => []
  | none => []

/-- Embeds `enrich_graph_with_genes` (Clustering.py lines 29-39): for every
node of the graph, set the node's genes attribute to the gene list looked up
by the node's label, defaulting to the empty list when the label is absent
from the mapping (no error is raised for missing entries). -/
def enrich_graph_with_genes (g : Graph) (m : List (String × Option (List Gene))) : Graph :=
  { g with
    attr := fun n =>
      if n ∈ g.nodes then
        { label := (g.attr n).label, genes := some (geneLookup m ((g.attr n).label)) }
      else g.attr n }

/-- Embeds `graph.nodes[node].get('genes', [])` (Clustering.py line 75): a
node lacking the genes attribute is treated as having an empty gene list. -/
def getGenes (g : Graph) (n : Node) : List Gene :=
  ((g.attr n).genes).getD []

/-- One `Counter` increment: bump the count of `x`, appending a fresh entry
with count 1 when `x` is not yet a key (Python dicts keep insertion order,
as does this association list). -/
def bump : List (Gene × Nat) → Gene → List (Gene × Nat)
  | [], x => [(x, 1)]
  | (k, v) :: rest, x => if k = x then (k, v + 1) :: rest else (k, v) :: bump rest x

/-- Embeds `target_counter.update(target_genes)`: every occurrence in the
list increments the counter, including repeated occurrences inside one list. -/
def counterUpdate (c : List (Gene × Nat)) (gs : List Gene) : List (Gene × Nat) :=
  gs.foldl bump c

/-- The counter built for one cluster (Clustering.py lines 70-76): start
from an empty Counter and update it with each member node's gene list. -/
def clusterCounter (g : Graph) (cluster : List Node) : List (Gene × Nat) :=
  cluster.foldl (fun c n => counterUpdate c (getGenes g n)) []

/-- The count a counter associates to a gene (0 when the gene is no key). -/
def counterValue : List (Gene × Nat) → Gene → Nat
  | [], _ => 0
  | (k, v) :: rest, x => if k = x then v else counterValue rest x

/-- Total number of occurrences of `x` across the gene lists of the
cluster's member nodes, counting multiplicity inside each list. -/
def geneCount (g : Graph) (cluster : List Node) (x : Gene) : Nat :=
  (cluster.map (fun n => (getGenes g n).count x)).sum

/-- Embeds the dominant-target comprehension (Clustering.py lines 79-82):
keep, in counter order, every counted gene whose count divided by the
cluster size reaches the frequency threshold.  The Python float division
is embedded as exact rational division. -/
def dominantTargets (g : Graph) (cluster : List Node) (tau : ℚ) : List Gene :=
  ((clusterCounter g cluster).filter
      (fun p => decide (tau ≤ (p.2 : ℚ) / (cluster.length : ℚ)))).map Prod.fst

/-- The `for idx, cluster in enumerate(clusters)` loop of
`analyze_cluster_targets`, carrying the running index. -/
def analyzeFrom (g : Graph) (tau : ℚ) : Nat → List (List Node) → List (Nat × List Gene)
  | _, [] => []
  | idx, c :: rest => (idx, dominantTargets g c tau) :: analyzeFrom g tau (idx + 1) rest

/-- Embeds `analyze_cluster_targets` (Clustering.py lines 56-85): the
returned dictionary, as an association list from cluster index to the
cluster's dominant-gene list.  The Python default for the threshold
argument is 0.25. -/
def analyze_cluster_targets (g : Graph) (clusters : List (List Node)) (tau : ℚ) :
    List (Nat × List Gene) :=
  analyzeFrom g tau 0 clusters

/-- One expansion step of reachability: the nodes of the graph that are in
`s` or adjacent to a member of `s`. -/
def adjStep (g : Graph) (s : List Node) : List Node :=
  g.nodes.filter (fun v => decide (v ∈ s) || s.any (fun u => g.adj u v))

/-- Iterate `adjStep` a fixed number of times. -/
def stepN (g : Graph) : Nat → List Node → List Node
  | 0, s => s
  | n + 1, s => stepN g n (adjStep g s)

/-- The connected component of `v`: all nodes reachable from `v`, computed
as the saturation of `adjStep` (iterating it as many times as there are
nodes is enough to reach the fixpoint).  Models networkx's breadth-first
component search as a set of nodes, listed in node order. -/
def reachSet (g : Graph) (v : Node) : List Node :=
  stepN g g.nodes.length (g.nodes.filter (fun u => decide (u = v)))

/-- The `seen`-set loop of networkx `connected_components`: walk the nodes
in order and emit the component of each node not seen before. -/
def componentsGo (g : Graph) : List Node → List Node → List (List Node)
  | [], _ => []
  | v :: vs, seen =>
    if v ∈ seen then componentsGo g vs seen
    else reachSet g v :: componentsGo g vs (seen ++ reachSet g v)

/-- Embeds `nx.connected_components(graph)`: the components in order of
first appearance of a member node. -/
def connected_components (g : Graph) : List (List Node) :=
  componentsGo g g.nodes []

/-- Embeds Python `max(iterable, key=len)`: the first element of maximal
length, or `none` for an empty iterable (where Python max raises
ValueError). -/
def maxByLen : List (List Node) → Option (List Node)
  | [] => none
  | c :: cs => some (cs.foldl (fun best x => if best.length < x.length then x else best) c)

/-- Embeds `graph.subgraph(s).copy()`: the induced subgraph on the node set
`s`, built as a fresh Graph value (nodes kept in the original node order,
edges restricted to pairs inside `s`, attributes carried over). -/
def subgraphOn (g : Graph) (s : List Node) : Graph where
  nodes := g.nodes.filter (fun v => decide (v ∈ s))
  adj := fun a b => decide (a ∈ s) && decide (b ∈ s) && g.adj a b
  attr := g.attr

/-- Embeds `largest_connected_component` (Clustering.py lines 42-53):
`max(nx.connected_components(graph), key=len)` followed by
`graph.subgraph(lcc).copy()`.  On a graph with no nodes the component
iterator is empty and Python's max raises ValueError. -/
def largest_connected_component (g : Graph) : Except PyError Graph :=
  match maxByLen (connected_components g) with
  | none => Except.error PyError.valueError
  | some lcc => Except.ok (subgraphOn g lcc)

/-- Single-step-closed reachability in a graph, as a proposition: a chain
of adjacency steps, each landing on a node of the graph. -/
def Reaches (g : Graph) (u v : Node) : Prop :=
  Relation.ReflTransGen (fun a b => g.adj a b = true ∧ b ∈ g.nodes) u v

/-- A graph is connected when every node reaches every node. -/
def ConnectedGraph (h : Graph) : Prop :=
  ∀ u, u ∈ h.nodes → ∀ v, v ∈ h.nodes → Reaches h u v

/-- Modelled from the spec: sklearn's `SpectralClustering(...).fit_predict`
is external library code, not part of src/.  It is modelled as failing with
the library's ValueError when the number of samples is smaller than the
requested number of clusters (the ARPACK eigendecomposition and the k-means
step both require at least `n_clusters` samples), and otherwise returning
some fixed labeling of the nodes (the labeling itself is opaque library
behavior; no claim depends on it). -/
def spectralFitPredict (n k : Nat) : Except PyError (List Nat) :=
  if n < k then Except.error PyError.valueError
  else Except.ok ((List.range n).map (fun i => i % k))

/-- `clusters.setdefault(label, []).append(node)`: append a node to the
group of its label, creating the group at the end on first sight. -/
def addToGroup : List (Nat × List Node) → Nat → Node → List (Nat × List Node)
  | [], lab, v => [(lab, [v])]
  | (l, vs) :: rest, lab, v =>
    if l = lab then (l, vs ++ [v]) :: rest else (l, vs) :: addToGroup rest lab v

/-- Group the nodes by their predicted labels, keeping label insertion
order, and return the groups (`list(clusters.values())`). -/
def groupByLabel (nodes : List Node) (labels : List Nat) : List (List Node) :=
  ((nodes.zip labels).foldl (fun acc p => addToGroup acc p.2 p.1) []).map Prod.snd

/-- Lexicographic comparison of node lists, as used by Python `sorted` on a
list of lists. -/
def lexLe : List Node → List Node → Bool
  | [], _ => true
  | _ :: _, [] => false
  | a :: as, b :: bs => if a < b then true else if b < a then false else lexLe as bs

/-- Insert into a lexicographically sorted list of clusters. -/
def insertLex (x : List Node) : List (List Node) → List (List Node)
  | [] => [x]
  | y :: ys => if lexLe x y then x :: y :: ys else y :: insertLex x ys

/-- Embeds Python `sorted` on a list of node lists. -/
def sortLex : List (List Node) → List (List Node)
  | [] => []
  | x :: xs => insertLex x (sortLex xs)

/-- Embeds `spectral_clustering` (Clustering.py lines 132-149): run the
library's spectral clustering on the adjacency matrix (propagating its
error, there is no node-count guard in the code), then group the nodes by
label and sort the groups. -/
def spectral_clustering (g : Graph) (n_clusters : Nat) : Except PyError (List (List Node)) :=
  match spectralFitPredict g.nodes.length n_clusters with
  | Except.error e => Except.error e
  | Except.ok labels => Except.ok (sortLex (groupByLabel g.nodes labels))

/-- A clustering strategy as registered in `compare_clustering`: a callable
from the graph to a partition, which may raise. -/
def StrategyFn := Graph → Except PyError (List (List Node))

/-- Embeds the strategy loop of `compare_clustering` (Clustering.py lines
207-216): for each registered algorithm in order, run it on the graph and
analyze the resulting partition with the default threshold 0.25.  The loop
body contains no exception handling, so an error raised by any strategy
propagates out immediately, exactly as an uncaught Python exception would. -/
def compareLoop (algs : List (String × StrategyFn)) (g : Graph) :
    Except PyError (List (String × List (Nat × List Gene))) :=
  match algs with
  | [] => Except.ok []
  | (nm, alg) :: rest =>
    match alg g with
    | Except.error e => Except.error e
    | Except.ok clusters =>
      match compareLoop rest g with
      | Except.error e => Except.error e
      | Except.ok tail => Except.ok ((nm, analyze_cluster_targets g clusters (1 / 4)) :: tail)

/-- The already-enriched 4-node scenario graph from the design document:
labels A, B, C, D with gene lists [g1, g2], [g1], [g1, g3], []. -/
def gScen : Graph where
  nodes := [0, 1, 2, 3]
  adj := fun _ _ => false
  attr := fun n =>
    match n with
    | 0 => { label := "A", genes := some ["g1", "g2"] }
    | 1 => { label := "B", genes := some ["g1"] }
    | 2 => { label := "C", genes := some ["g1", "g3"] }
    | 3 => { label := "D", genes := some [] }
    | _ => { label := "", genes := none }

/-- One node whose gene list contains the same gene twice. -/
def gDup : Graph where
  nodes := [0]
  adj := fun _ _ => false
  attr := fun n =>
    match n with
    | 0 => { label := "A", genes := some ["g1", "g1"] }
    | _ => { label := "", genes := none }

/-- Two nodes: one lists g1 twice, the other lists no genes at all. -/
def gDup2 : Graph where
  nodes := [0, 1]
  adj := fun _ _ => false
  attr := fun n =>
    match n with
    | 0 => { label := "A", genes := some ["g1", "g1"] }
    | 1 => { label := "B", genes := some [] }
    | _ => { label := "", genes := none }

/-- Two nodes with duplicate-free gene lists both containing g1. -/
def gBoth : Graph where
  nodes := [0, 1]
  adj := fun _ _ => false
  attr := fun n =>
    match n with
    | 0 => { label := "A", genes := some ["g1"] }
    | 1 => { label := "B", genes := some ["g1", "g2"] }
    | _ => { label := "", genes := none }

/-- The graph with zero nodes. -/
def gEmpty : Graph where
  nodes := []
  adj := fun _ _ => false
  attr := fun _ => { label := "", genes := none }

/-- An unenriched connected 3-node path graph 0 - 1 - 2. -/
def gPath3 : Graph where
  nodes := [0, 1, 2]
  adj := fun a b =>
    decide ((a, b) = (0, 1)) || decide ((a, b) = (1, 0)) ||
      decide ((a, b) = (1, 2)) || decide ((a, b) = (2, 1))
  attr := fun _ => { label := "", genes := none }

/-- Three nodes with one edge 0 - 1; node 2 is isolated. -/
def gTwoComp : Graph where
  nodes := [0, 1, 2]
  adj := fun a b => decide ((a, b) = (0, 1)) || decide ((a, b) = (1, 0))
  attr := fun _ => { label := "", genes := none }

/-- A small drug-gene mapping used to instantiate the enrichment theorem. -/
def mSmall : List (String × Option (List Gene)) :=
  [("A", some ["g1"]), ("B", some ["g2", "g3"])]

/-- A strategy that always succeeds, standing in for the external library
community-detection algorithms whose outputs are irrelevant to the
control-flow property under study. -/
def okStrategy : StrategyFn := fun g => Except.ok [g.nodes]

/-- The spectral strategy exactly as registered by `compare_clustering`:
`lambda g: spectral_clustering(g, n_clusters=5)`. -/
def spectralStrategy : StrategyFn := fun g => spectral_clustering g 5

/-- The strategy registry of `compare_clustering`, in registration order;
the three library-backed algorithms are modelled as succeeding callables
(their partitions play no role in the error-propagation property). -/
def compareRegistry : List (String × StrategyFn) :=
  [("Girvan-Newman", okStrategy),
   ("Label Propagation", okStrategy),
   ("Louvain", okStrategy),
   ("Spectral Clustering", spectralStrategy)]

lemma counterValue_bump (c : List (Gene × Nat)) (x y : Gene) :
    counterValue (bump c x) y = counterValue c y + (if x = y then 1 else 0) := by
  induction c with
  | nil => by_cases hxy : x = y <;> simp [bump, counterValue, hxy]
  | cons p rest ih =>
    obtain ⟨k, v⟩ := p
    by_cases hkx : k = x
    · subst hkx
      by_cases hky : k = y
      · subst hky
        simp [bump, counterValue]
      · simp [bump, counterValue, hky]
    · by_cases hky : k = y
      · subst hky
        simp [bump, counterValue, hkx, Ne.symm hkx]
      · simp [bump, counterValue, hkx, hky, ih]

lemma counterValue_counterUpdate (c : List (Gene × Nat)) (gs : List Gene) (y : Gene) :
    counterValue (counterUpdate c gs) y = counterValue c y + gs.count y := by
  induction gs generalizing c with
  | nil => simp [counterUpdate]
  | cons x gs ih =>
    have hstep : counterUpdate c (x :: gs) = counterUpdate (bump c x) gs := rfl
    rw [hstep, ih, counterValue_bump, List.count_cons]
    rcases Decidable.em (x = y) with hxy | hxy
    · rw [if_pos hxy, if_pos (by simp [hxy])]
      omega
    · rw [if_neg hxy, if_neg (by simp [hxy])]
      omega

lemma counterValue_foldl (g : Graph) (cluster : List Node) (c : List (Gene × Nat)) (y : Gene) :
    counterValue (cluster.foldl (fun c n => counterUpdate c (getGenes g n)) c) y =
      counterValue c y + geneCount g cluster y := by
  induction cluster generalizing c with
  | nil => simp [geneCount]
  | cons n ns ih =>
    simp only [List.foldl_cons, ih, counterValue_counterUpdate, geneCount, List.map_cons,
      List.sum_cons]
    omega

/-- The count held by the per-cluster Counter is the total number of
occurrences of the gene across member gene lists, with multiplicity. -/
lemma counterValue_clusterCounter (g : Graph) (cluster : List Node) (y : Gene) :
    counterValue (clusterCounter g cluster) y = geneCount g cluster y := by
  have h := counterValue_foldl g cluster [] y
  simpa [clusterCounter, counterValue] using h

lemma bump_pos (c : List (Gene × Nat)) (x : Gene) (h : ∀ p ∈ c, 1 ≤ p.2) :
    ∀ p ∈ bump c x, 1 ≤ p.2 := by
  induction c with
  | nil => simp [bump]
  | cons q rest ih =>
    obtain ⟨k, v⟩ := q
    intro p hp
    by_cases hkx : k = x
    · simp [bump, hkx] at hp
      rcases hp with hp | hp
      · have := h (k, v) (by simp)
        simp [hp]
      · exact h p (List.mem_cons_of_mem _ hp)
    · simp [bump, hkx] at hp
      rcases hp with hp | hp
      · exact h p (by simp [hp])
      · exact ih (fun q hq => h q (List.mem_cons_of_mem _ hq)) p hp

lemma counterUpdate_pos (c : List (Gene × Nat)) (gs : List Gene) (h : ∀ p ∈ c, 1 ≤ p.2) :
    ∀ p ∈ counterUpdate c gs, 1 ≤ p.2 := by
  induction gs generalizing c with
  | nil => simpa [counterUpdate] using h
  | cons x gs ih => exact ih (bump c x) (bump_pos c x h)

lemma clusterCounter_pos (g : Graph) (cluster : List Node) :
    ∀ p ∈ clusterCounter g cluster, 1 ≤ p.2 := by
  have hgen : ∀ (c : List (Gene × Nat)), (∀ p ∈ c, 1 ≤ p.2) →
      ∀ p ∈ cluster.foldl (fun c n => counterUpdate c (getGenes g n)) c, 1 ≤ p.2 := by
    induction cluster with
    | nil => intro c hc; simpa using hc
    | cons n ns ih =>
      intro c hc
      exact ih _ (counterUpdate_pos c (getGenes g n) hc)
  exact hgen [] (by simp)

lemma keys_bump (c : List (Gene × Nat)) (x : Gene) :
    (bump c x).map Prod.fst =
      if x ∈ c.map Prod.fst then c.map Prod.fst else c.map Prod.fst ++ [x] := by
  induction c with
  | nil => simp [bump]
  | cons q rest ih =>
    obtain ⟨k, v⟩ := q
    by_cases hkx : k = x
    · simp [bump, hkx]
    · have hxk : ¬ x = k := fun h => hkx h.symm
      simp only [bump, if_neg hkx, List.map_cons, ih, List.mem_cons]
      by_cases hmem : x ∈ rest.map Prod.fst <;> simp [hmem, hxk]

lemma keys_bump_nodup (c : List (Gene × Nat)) (x : Gene)
    (h : (c.map Prod.fst).Nodup) : ((bump c x).map Prod.fst).Nodup := by
  rw [keys_bump]
  by_cases hmem : x ∈ c.map Prod.fst
  · simpa [hmem] using h
  · simp only [if_neg hmem]
    rw [List.nodup_append]
    exact ⟨h, List.nodup_singleton x, by simpa using hmem⟩

lemma keys_counterUpdate_nodup (c : List (Gene × Nat)) (gs : List Gene)
    (h : (c.map Prod.fst).Nodup) : ((counterUpdate c gs).map Prod.fst).Nodup := by
  induction gs generalizing c with
  | nil => simpa [counterUpdate] using h
  | cons x gs ih => exact ih (bump c x) (keys_bump_nodup c x h)

lemma keys_clusterCounter_nodup (g : Graph) (cluster : List Node) :
    ((clusterCounter g cluster).map Prod.fst).Nodup := by
  have hgen : ∀ (c : List (Gene × Nat)), (c.map Prod.fst).Nodup →
      (((cluster.foldl (fun c n => counterUpdate c (getGenes g n)) c)).map Prod.fst).Nodup := by
    induction cluster with
    | nil => intro c hc; simpa using hc
    | cons n ns ih =>
      intro c hc
      exact ih _ (keys_counterUpdate_nodup c (getGenes g n) hc)
  exact hgen [] (by simp)

lemma counterValue_of_mem (c : List (Gene × Nat)) (x : Gene) (v : Nat)
    (hnd : (c.map Prod.fst).Nodup) (hm : (x, v) ∈ c) : counterValue c x = v := by
  induction c with
  | nil => simp at hm
  | cons q rest ih =>
    obtain ⟨k, w⟩ := q
    rcases List.mem_cons.mp hm with hq | hq
    · rw [show x = k from (Prod.ext_iff.mp hq).1, show v = w from (Prod.ext_iff.mp hq).2]
      simp [counterValue]
    · rw [List.map_cons] at hnd
      obtain ⟨h1, h2⟩ := List.nodup_cons.mp hnd
      by_cases hkx : k = x
      · exact absurd (List.mem_map.mpr ⟨(x, v), hq, rfl⟩) (hkx ▸ h1)
      · simpa [counterValue, hkx] using ih h2 hq

lemma mem_of_counterValue_pos (c : List (Gene × Nat)) (x : Gene)
    (h : 1 ≤ counterValue c x) : (x, counterValue c x) ∈ c := by
  induction c with
  | nil => simp [counterValue] at h
  | cons q rest ih =>
    obtain ⟨k, w⟩ := q
    by_cases hkx : k = x
    · simp [counterValue, hkx]
    · simp only [counterValue, if_neg hkx] at h ⊢
      exact List.mem_cons_of_mem _ (ih h)

/-- Membership in the dominant-target list, unfolded to the Counter. -/
lemma mem_dominantTargets (g : Graph) (cluster : List Node) (tau : ℚ) (x : Gene) :
    x ∈ dominantTargets g cluster tau ↔
      ∃ v, (x, v) ∈ clusterCounter g cluster ∧
        tau ≤ (v : ℚ) / (cluster.length : ℚ) := by
  constructor
  · intro hx
    obtain ⟨p, hp, hpx⟩ := List.mem_map.mp hx
    obtain ⟨hpc, hcond⟩ := List.mem_filter.mp hp
    refine ⟨p.2, ?_, ?_⟩
    · have hxp : (x, p.2) = p := by
        obtain ⟨a, b⟩ := p
        simp only at hpx
        simp [hpx]
      rwa [hxp]
    · exact of_decide_eq_true hcond
  · rintro ⟨v, hv, hcond⟩
    exact List.mem_map.mpr ⟨(x, v),
      List.mem_filter.mpr ⟨hv, decide_eq_true hcond⟩, rfl⟩

lemma sum_le_length (l : List Nat) (h : ∀ a ∈ l, a ≤ 1) : l.sum ≤ l.length := by
  induction l with
  | nil => simp
  | cons a l ih =>
    have ha := h a (by simp)
    have := ih (fun b hb => h b (List.mem_cons_of_mem _ hb))
    simp only [List.sum_cons, List.length_cons]
    omega

lemma all_one_of_length_le_sum (l : List Nat) (hb : ∀ a ∈ l, a ≤ 1)
    (hs : l.length ≤ l.sum) : ∀ a ∈ l, a = 1 := by
  induction l with
  | nil => simp
  | cons a l ih =>
    have ha := hb a (by simp)
    have htail := sum_le_length l (fun b hbm => hb b (List.mem_cons_of_mem _ hbm))
    simp only [List.length_cons, List.sum_cons] at hs
    have ha1 : a = 1 := by omega
    intro b hbm
    rcases List.mem_cons.mp hbm with hb1 | hb2
    · simp [hb1, ha1]
    · exact ih (fun c hc => hb c (List.mem_cons_of_mem _ hc)) (by omega) b hb2

lemma analyzeFrom_mem_empty (g : Graph) (tau : ℚ) (pre post : List (List Node)) :
    ∀ k, (k + pre.length, ([] : List Gene)) ∈ analyzeFrom g tau k (pre ++ [] :: post) := by
  induction pre with
  | nil =>
    intro k
    have hd : dominantTargets g [] tau = [] := rfl
    simp [analyzeFrom, hd]
  | cons c rest ih =>
    intro k
    have := ih (k + 1)
    simp only [List.cons_append, analyzeFrom, List.length_cons]
    right
    have harith : k + 1 + rest.length = k + (rest.length + 1) := by omega
    rwa [harith] at this

lemma clusterCounter_of_all_empty (g : Graph) (cluster : List Node)
    (h : ∀ n ∈ cluster, getGenes g n = []) : clusterCounter g cluster = [] := by
  suffices hgen : ∀ (cl : List Node), (∀ n ∈ cl, getGenes g n = []) →
      ∀ (c : List (Gene × Nat)), cl.foldl (fun c n => counterUpdate c (getGenes g n)) c = c by
    exact hgen cluster h []
  intro cl
  induction cl with
  | nil => intro _ c; simp
  | cons n ns ih =>
    intro hcl c
    have hn : getGenes g n = [] := hcl n (by simp)
    have hupd : counterUpdate c (getGenes g n) = c := by rw [hn]; rfl
    simp only [List.foldl_cons, hupd]
    exact ih (fun m hm => hcl m (List.mem_cons_of_mem _ hm)) c


/-- C2 amended claim: the occurrence count held by the Counter for a gene is
the total number of occurrences of the gene across all member nodes' gene
lists, counting multiplicity inside each node's own list (Counter.update
counts every element of the list, it does not deduplicate per node). -/
theorem cluster_count_is_total_multiplicity (g : Graph) (cluster : List Node) (x : Gene) :
    counterValue (clusterCounter g cluster) x = geneCount g cluster x :=
  counterValue_clusterCounter g cluster x

/-- C2 counterexample: for the single-member cluster [0] of gDup, whose one
node lists g1 twice, the Counter holds 2 for g1 while only one member node
contains g1, so the count is not the number of member nodes containing the
gene. -/
theorem cluster_count_per_node_cex :
    counterValue (clusterCounter gDup [0]) "g1" ≠
      (List.filter (fun n => decide ("g1" ∈ getGenes gDup n)) [0]).length := by
  decide

/-- C1: a gene is in the dominant list of a cluster exactly when its
occurrence count divided by the cluster size reaches the (positive)
threshold; and on the 4-node scenario {A, B, C, D} with gene lists
[g1, g2], [g1], [g1, g3], [] and threshold 0.5, `analyze_cluster_targets`
yields exactly [g1] for the single cluster. -/
theorem dominant_iff_frequency_ge_threshold :
    (∀ (g : Graph) (cluster : List Node) (tau : ℚ) (x : Gene), 0 < tau →
      (x ∈ dominantTargets g cluster tau ↔
        tau ≤ (geneCount g cluster x : ℚ) / (cluster.length : ℚ))) ∧
    analyze_cluster_targets gScen [[0, 1, 2, 3]] (1 / 2) = [(0, ["g1"])] := by
  constructor
  · intro g cluster tau x htau
    rw [mem_dominantTargets]
    constructor
    · rintro ⟨v, hv, hle⟩
      have hval : counterValue (clusterCounter g cluster) x = v :=
        counterValue_of_mem _ _ _ (keys_clusterCounter_nodup g cluster) hv
      rw [← counterValue_clusterCounter g cluster x, hval]
      exact hle
    · intro hle
      have hpos : 1 ≤ geneCount g cluster x := by
        by_contra hzero
        have h0 : geneCount g cluster x = 0 := by omega
        rw [h0] at hle
        simp only [Nat.cast_zero, zero_div] at hle
        exact absurd (lt_of_lt_of_le htau hle) (lt_irrefl 0)
      have hval := counterValue_clusterCounter g cluster x
      refine ⟨geneCount g cluster x, ?_, hle⟩
      have hmem := mem_of_counterValue_pos (clusterCounter g cluster) x (hval ▸ hpos)
      rwa [hval] at hmem
  · norm_num +decide [analyze_cluster_targets, analyzeFrom, dominantTargets, clusterCounter,
      counterUpdate, bump, getGenes, gScen]

/-- C1 witness: the general equivalence applied to the scenario graph at
gene g1 with threshold 1/2. -/
theorem dominant_iff_frequency_ge_threshold_witness :
    (0 : ℚ) < 1 / 2 ∧
      ("g1" ∈ dominantTargets gScen [0, 1, 2, 3] (1 / 2) ↔
        (1 : ℚ) / 2 ≤ (geneCount gScen [0, 1, 2, 3] "g1" : ℚ) /
          (([0, 1, 2, 3] : List Node).length : ℚ)) :=
  ⟨by norm_num,
    dominant_iff_frequency_ge_threshold.1 gScen [0, 1, 2, 3] (1 / 2) "g1" (by norm_num)⟩

/-- C3 amended claim: with threshold 1.0 a dominant gene appears in every
member's gene list, provided no member node lists that gene more than once
in its own gene list (without that proviso the per-occurrence counting can
reach the cluster size from duplicates inside a single node's list). -/
theorem dominant_at_full_threshold_in_every_member (g : Graph) (cluster : List Node) (x : Gene)
    (hdup : ∀ n, n ∈ cluster → (getGenes g n).count x ≤ 1)
    (hdom : x ∈ dominantTargets g cluster 1) :
    ∀ n, n ∈ cluster → x ∈ getGenes g n := by
  intro n hn
  obtain ⟨v, hv, hle⟩ := (mem_dominantTargets g cluster 1 x).mp hdom
  have hval : counterValue (clusterCounter g cluster) x = v :=
    counterValue_of_mem _ _ _ (keys_clusterCounter_nodup g cluster) hv
  have hgc : geneCount g cluster x = v := by
    rw [← hval, counterValue_clusterCounter]
  have hlen_pos : 0 < cluster.length := List.length_pos_of_mem hn
  have hlenq : (0 : ℚ) < (cluster.length : ℚ) := by exact_mod_cast hlen_pos
  have hge : (cluster.length : ℚ) ≤ (v : ℚ) := by
    have := (le_div_iff₀ hlenq).mp hle
    simpa using this
  have hgeN : cluster.length ≤ v := by exact_mod_cast hge
  have hbound : ∀ a ∈ cluster.map (fun m => (getGenes g m).count x), a ≤ 1 := by
    intro a ha
    obtain ⟨m, hm, hma⟩ := List.mem_map.mp ha
    rw [← hma]
    exact hdup m hm
  have hsum : (cluster.map (fun m => (getGenes g m).count x)).length ≤
      (cluster.map (fun m => (getGenes g m).count x)).sum := by
    rw [List.length_map]
    have : (cluster.map (fun m => (getGenes g m).count x)).sum = geneCount g cluster x := rfl
    omega
  have hall := all_one_of_length_le_sum _ hbound hsum
  have hcnt : (getGenes g n).count x = 1 :=
    hall _ (List.mem_map.mpr ⟨n, hn, rfl⟩)
  exact List.count_pos_iff.mp (by omega)

/-- C3 witness: on gBoth (gene lists [g1] and [g1, g2], both
duplicate-free), g1 is dominant at threshold 1 and is in every member's
list. -/
theorem dominant_at_full_threshold_in_every_member_witness :
    (∀ n, n ∈ ([0, 1] : List Node) → (getGenes gBoth n).count "g1" ≤ 1) ∧
      ∀ n, n ∈ ([0, 1] : List Node) → "g1" ∈ getGenes gBoth n :=
  ⟨by decide,
    dominant_at_full_threshold_in_every_member gBoth [0, 1] "g1" (by decide)
      (by norm_num +decide [dominantTargets, clusterCounter, counterUpdate, bump,
        getGenes, gBoth])⟩

/-- C3 counterexample: in gDup2, node 0 lists g1 twice and node 1 does not
list g1 at all; with threshold 1.0 the code still reports g1 as dominant
for the cluster [0, 1] (count 2 over size 2), although g1 is missing from
member 1's gene list. -/
theorem dominant_at_full_threshold_cex :
    "g1" ∈ dominantTargets gDup2 [0, 1] 1 ∧ "g1" ∉ getGenes gDup2 1 := by
  constructor
  · norm_num +decide [dominantTargets, clusterCounter, counterUpdate, bump, getGenes, gDup2]
  · decide

/-- C4: an empty cluster leads to an empty Counter, so the dominant-target
comprehension iterates zero times (no division is ever evaluated) and the
cluster's entry in the analysis is the empty gene list. -/
theorem analyze_empty_cluster_safe (g : Graph) (tau : ℚ) (pre post : List (List Node)) :
    clusterCounter g [] = [] ∧ dominantTargets g [] tau = [] ∧
      (pre.length, ([] : List Gene)) ∈ analyze_cluster_targets g (pre ++ [] :: post) tau := by
  refine ⟨rfl, rfl, ?_⟩
  have := analyzeFrom_mem_empty g tau pre post 0
  simpa [analyze_cluster_targets] using this

/-- C9: after enrichment every node of the graph carries a genes attribute;
it is the mapping's gene list when the node's label is a key of the
mapping, and the empty list when the label is absent (no error is raised
for absent labels: the lookup is total). -/
theorem enrich_sets_genes_attribute (g : Graph) (m : List (String × Option (List Gene)))
    (n : Node) (hn : n ∈ g.nodes) :
    (((enrich_graph_with_genes g m).attr n).genes).isSome = true ∧
      ((enrich_graph_with_genes g m).attr n).label = (g.attr n).label ∧
      (∀ gs, listLookup m ((g.attr n).label) = some (some gs) →
        ((enrich_graph_with_genes g m).attr n).genes = some gs) ∧
      (listLookup m ((g.attr n).label) = none →
        ((enrich_graph_with_genes g m).attr n).genes = some []) := by
  refine ⟨?_, ?_, ?_, ?_⟩
  · simp [enrich_graph_with_genes, hn]
  · simp [enrich_graph_with_genes, hn]
  · intro gs hgs
    simp [enrich_graph_with_genes, hn, geneLookup, hgs]
  · intro hnone
    simp [enrich_graph_with_genes, hn, geneLookup, hnone]

/-- C9 witness: node 0 of the scenario graph (label A) enriched with the
small mapping receives exactly the mapped gene list. -/
theorem enrich_sets_genes_attribute_witness :
    (0 : Node) ∈ gScen.nodes ∧
      listLookup mSmall ((gScen.attr 0).label) = some (some ["g1"]) ∧
      ((enrich_graph_with_genes gScen mSmall).attr 0).genes = some ["g1"] :=
  ⟨by decide, by decide,
    (enrich_sets_genes_attribute gScen mSmall 0 (by decide)).2.2.1 ["g1"] (by decide)⟩

/-- C10: analysis does not require prior enrichment: every member node
lacking the genes attribute is read as having the empty gene list, and the
analysis of a fully unenriched partition completes, assigning every cluster
the empty dominant-gene list. -/
theorem analyze_unenriched_graph (g : Graph) (clusters : List (List Node)) (tau : ℚ)
    (h : ∀ n, n ∈ clusters.flatten → (g.attr n).genes = none) :
    (∀ n, n ∈ clusters.flatten → getGenes g n = []) ∧
      ∀ p, p ∈ analyze_cluster_targets g clusters tau → p.2 = [] := by
  have hget : ∀ n, n ∈ clusters.flatten → getGenes g n = [] := by
    intro n hn
    simp [getGenes, h n hn]
  refine ⟨hget, ?_⟩
  suffices hgen : ∀ (cls : List (List Node)), (∀ n, n ∈ cls.flatten → getGenes g n = []) →
      ∀ k p, p ∈ analyzeFrom g tau k cls → p.2 = [] by
    intro p hp
    exact hgen clusters hget 0 p hp
  intro cls
  induction cls with
  | nil => intro _ k p hp; simp [analyzeFrom] at hp
  | cons c rest ih =>
    intro hcls k p hp
    rcases List.mem_cons.mp hp with hp1 | hp2
    · have hcc : clusterCounter g c = [] :=
        clusterCounter_of_all_empty g c
          (fun n hn => hcls n (by simp [List.mem_flatten]; exact Or.inl hn))
      rw [hp1]
      simp [dominantTargets, hcc]
    · exact ih (fun n hn => hcls n (by
        simp only [List.flatten_cons, List.mem_append]
        exact Or.inr hn)) (k + 1) p hp2

/-- C10 witness: analysis over the unenriched 3-node path graph completes
and reports no dominant genes. -/
theorem analyze_unenriched_graph_witness :
    (∀ n, n ∈ ([[0, 1, 2]] : List (List Node)).flatten → (gPath3.attr n).genes = none) ∧
      ∀ p, p ∈ analyze_cluster_targets gPath3 [[0, 1, 2]] (1 / 4) → p.2 = [] :=
  ⟨by decide, (analyze_unenriched_graph gPath3 [[0, 1, 2]] (1 / 4) (by decide)).2⟩

/-- C5 amended claim: on a graph with zero nodes,
`largest_connected_component` fails, but with Python's builtin ValueError
(raised by max() over the empty component iterator), not with a custom
EmptyGraphError, which is defined nowhere in the code. -/
theorem empty_graph_raises_value_error (g : Graph) (h : g.nodes = []) :
    largest_connected_component g = Except.error PyError.valueError := by
  simp [largest_connected_component, connected_components, h, componentsGo, maxByLen]

/-- C5 witness: the theorem applied to the zero-node graph. -/
theorem empty_graph_raises_value_error_witness :
    gEmpty.nodes = [] ∧
      largest_connected_component gEmpty = Except.error PyError.valueError :=
  ⟨rfl, empty_graph_raises_value_error gEmpty rfl⟩

/-- C5 counterexample: on the zero-node graph the function does not fail
with the EmptyGraphError named by the design document (it raises a plain
ValueError instead). -/
theorem empty_graph_error_name_cex :
    largest_connected_component gEmpty ≠ Except.error PyError.emptyGraphError := by
  intro hcontra
  rw [show largest_connected_component gEmpty = Except.error PyError.valueError from rfl]
    at hcontra
  exact PyError.noConfusion (Except.error.inj hcontra)

/-- C7 amended claim: when the graph has fewer nodes than the requested
cluster count, `spectral_clustering` fails with the library's ValueError
(there is no node-count guard in the code and no InsufficientNodesError
class anywhere in it). -/
theorem spectral_insufficient_nodes_value_error (g : Graph) (k : Nat)
    (h : g.nodes.length < k) :
    spectral_clustering g k = Except.error PyError.valueError := by
  simp [spectral_clustering, spectralFitPredict, h]

/-- C7 witness: the theorem applied at k = 5 on the 3-node path graph. -/
theorem spectral_insufficient_nodes_value_error_witness :
    gPath3.nodes.length < 5 ∧
      spectral_clustering gPath3 5 = Except.error PyError.valueError :=
  ⟨by decide, spectral_insufficient_nodes_value_error gPath3 5 (by decide)⟩

/-- C7 counterexample: requesting k = 5 clusters on the 3-node graph fails,
but not with the InsufficientNodesError named by the design document:
the result is the library's ValueError. -/
theorem spectral_error_name_cex :
    spectral_clustering gPath3 5 = Except.error PyError.valueError ∧
      spectral_clustering gPath3 5 ≠ Except.error PyError.insufficientNodesError := by
  refine ⟨rfl, ?_⟩
  intro hcontra
  rw [show spectral_clustering gPath3 5 = Except.error PyError.valueError from rfl]
    at hcontra
  exact PyError.noConfusion (Except.error.inj hcontra)

/-- C8 amended claim: the comparison loop has no per-strategy error
handling: once every strategy before some failing strategy has succeeded,
the failing strategy's error becomes the result of the whole comparison,
whatever strategies are registered after it (they are never run and
nothing is reported as skipped). -/
theorem compare_loop_propagates_strategy_error (pre post : List (String × StrategyFn))
    (nm : String) (f : StrategyFn) (g : Graph) (e : PyError)
    (hpre : ∃ r, compareLoop pre g = Except.ok r) (hf : f g = Except.error e) :
    compareLoop (pre ++ (nm, f) :: post) g = Except.error e := by
  induction pre with
  | nil => simp [compareLoop, hf]
  | cons a rest ih =>
    obtain ⟨r, hr⟩ := hpre
    obtain ⟨nm0, f0⟩ := a
    rw [List.cons_append]
    cases hfa : f0 g with
    | error e0 =>
      rw [compareLoop, hfa] at hr
      exact absurd hr (by simp)
    | ok cl =>
      rw [compareLoop, hfa] at hr
      cases hrest : compareLoop rest g with
      | error e0 =>
        rw [hrest] at hr
        exact absurd hr (by simp)
      | ok tl =>
        have hrec := ih ⟨tl, hrest⟩
        rw [compareLoop, hfa, hrec]

/-- C8 witness: a succeeding strategy followed by the spectral strategy on
the 3-node path graph: the loop result is the spectral ValueError. -/
theorem compare_loop_propagates_strategy_error_witness :
    compareLoop [("Girvan-Newman", okStrategy)] gPath3 =
        Except.ok [("Girvan-Newman", [(0, ([] : List Gene))])] ∧
      spectralStrategy gPath3 = Except.error PyError.valueError ∧
      compareLoop ([("Girvan-Newman", okStrategy)] ++
          ("Spectral Clustering", spectralStrategy) :: []) gPath3 =
        Except.error PyError.valueError :=
  ⟨rfl, rfl,
    compare_loop_propagates_strategy_error [("Girvan-Newman", okStrategy)] []
      "Spectral Clustering" spectralStrategy gPath3 PyError.valueError
      ⟨[("Girvan-Newman", [(0, [])])], rfl⟩ rfl⟩

/-- C8 counterexample: with the actual registry (three succeeding
library-backed strategies followed by spectral clustering with k = 5) on a
3-node graph, the comparison run ends in the uncaught ValueError: the
driver neither catches the per-strategy error nor completes with the
strategy reported as skipped. -/
theorem compare_loop_no_catch_cex :
    compareLoop compareRegistry gPath3 = Except.error PyError.valueError := rfl

lemma mem_adjStep (g : Graph) (s : List Node) (v : Node) :
    v ∈ adjStep g s ↔ v ∈ g.nodes ∧ (v ∈ s ∨ ∃ u ∈ s, g.adj u v = true) := by
  simp [adjStep, List.mem_filter, List.any_eq_true]

lemma adjStep_subset_nodes (g : Graph) (s : List Node) : adjStep g s ⊆ g.nodes :=
  fun _ hx => (List.mem_filter.mp hx).1

lemma adjStep_nodup (g : Graph) (s : List Node) (hnd : g.nodes.Nodup) :
    (adjStep g s).Nodup :=
  hnd.filter _

lemma subset_adjStep (g : Graph) (s : List Node) (hs : s ⊆ g.nodes) :
    s ⊆ adjStep g s := by
  intro v hv
  exact (mem_adjStep g s v).mpr ⟨hs hv, Or.inl hv⟩

lemma adjStep_congr (g : Graph) (s t : List Node) (h : ∀ x, x ∈ s ↔ x ∈ t) :
    adjStep g s = adjStep g t := by
  apply List.filter_congr
  intro v hv
  have hmem : (decide (v ∈ s)) = (decide (v ∈ t)) := decide_eq_decide.mpr (h v)
  have hany : (s.any (fun u => g.adj u v)) = (t.any (fun u => g.adj u v)) := by
    cases hsb : s.any (fun u => g.adj u v) <;> cases htb : t.any (fun u => g.adj u v)
    · rfl
    · obtain ⟨u, hu, hadj⟩ := List.any_eq_true.mp htb
      have hst : s.any (fun u => g.adj u v) = true :=
        List.any_eq_true.mpr ⟨u, (h u).mpr hu, hadj⟩
      rw [hsb] at hst
      exact hst
    · obtain ⟨u, hu, hadj⟩ := List.any_eq_true.mp hsb
      have hts : t.any (fun u => g.adj u v) = true :=
        List.any_eq_true.mpr ⟨u, (h u).mp hu, hadj⟩
      rw [htb] at hts
      exact hts.symm
    · rfl
  rw [hmem, hany]

lemma stepN_succ_out (g : Graph) (n : Nat) (s : List Node) :
    stepN g (n + 1) s = adjStep g (stepN g n s) := by
  induction n generalizing s with
  | zero => rfl
  | succ m ih =>
    have h1 : stepN g (m + 1 + 1) s = stepN g (m + 1) (adjStep g s) := rfl
    rw [h1, ih (adjStep g s)]
    rfl

lemma stepN_subset_nodes (g : Graph) (n : Nat) (s : List Node) (hs : s ⊆ g.nodes) :
    stepN g n s ⊆ g.nodes := by
  induction n generalizing s with
  | zero => exact hs
  | succ m ih => exact ih (adjStep g s) (adjStep_subset_nodes g s)

lemma stepN_nodup (g : Graph) (n : Nat) (s : List Node) (hsd : s.Nodup)
    (hnd : g.nodes.Nodup) : (stepN g n s).Nodup := by
  induction n generalizing s with
  | zero => exact hsd
  | succ m ih => exact ih (adjStep g s) (adjStep_nodup g s hnd)

lemma subset_stepN (g : Graph) (n : Nat) (s : List Node) (hs : s ⊆ g.nodes) :
    s ⊆ stepN g n s := by
  induction n generalizing s with
  | zero => exact fun x hx => hx
  | succ m ih =>
    intro x hx
    exact ih (adjStep g s) (adjStep_subset_nodes g s) (subset_adjStep g s hs hx)

lemma length_succ_le_of_not_seteq (t u : List Node) (htu : t ⊆ u) (htd : t.Nodup)
    (hne : ¬(∀ x, x ∈ u ↔ x ∈ t)) : t.length + 1 ≤ u.length := by
  have hx : ∃ x, x ∈ u ∧ x ∉ t := by
    by_contra hno
    push_neg at hno
    apply hne
    intro x
    exact ⟨fun hxu => hno x hxu, fun hxt => htu hxt⟩
  obtain ⟨x, hxu, hxt⟩ := hx
  have hsub : (x :: t) ⊆ u := by
    intro y hy
    rcases List.mem_cons.mp hy with hy1 | hy2
    · rw [hy1]; exact hxu
    · exact htu hy2
  have hperm : List.Subperm (x :: t) u :=
    List.subperm_of_subset (List.nodup_cons.mpr ⟨hxt, htd⟩) hsub
  simpa using hperm.length_le

lemma stepN_grow_or_fix (g : Graph) (s : List Node) (hs : s ⊆ g.nodes) (hsd : s.Nodup)
    (hnd : g.nodes.Nodup) :
    ∀ i, (∃ j, j ≤ i ∧ (∀ x, x ∈ adjStep g (stepN g j s) ↔ x ∈ stepN g j s)) ∨
      s.length + i ≤ (stepN g i s).length := by
  intro i
  induction i with
  | zero =>
    right
    rw [show stepN g 0 s = s from rfl]
    omega
  | succ m ih =>
    rcases ih with ⟨j, hj, hfix⟩ | hlen
    · exact Or.inl ⟨j, Nat.le_succ_of_le hj, hfix⟩
    · by_cases hfix : ∀ x, x ∈ adjStep g (stepN g m s) ↔ x ∈ stepN g m s
      · exact Or.inl ⟨m, Nat.le_succ m, hfix⟩
      · right
        have hsubm : stepN g m s ⊆ g.nodes := stepN_subset_nodes g m s hs
        have hndm : (stepN g m s).Nodup := stepN_nodup g m s hsd hnd
        have hincl : stepN g m s ⊆ adjStep g (stepN g m s) :=
          subset_adjStep g (stepN g m s) hsubm
        have hgrow := length_succ_le_of_not_seteq (stepN g m s)
          (adjStep g (stepN g m s)) hincl hndm hfix
        rw [stepN_succ_out]
        omega

lemma stepN_exists_fixpoint (g : Graph) (s : List Node) (hs : s ⊆ g.nodes)
    (hsd : s.Nodup) (hnd : g.nodes.Nodup) (hlen : 1 ≤ s.length) :
    ∃ j, j ≤ g.nodes.length ∧
      (∀ x, x ∈ adjStep g (stepN g j s) ↔ x ∈ stepN g j s) := by
  rcases stepN_grow_or_fix g s hs hsd hnd g.nodes.length with ⟨j, hj, hfix⟩ | hlen2
  · exact ⟨j, hj, hfix⟩
  · exfalso
    have hsubN : stepN g g.nodes.length s ⊆ g.nodes :=
      stepN_subset_nodes g g.nodes.length s hs
    have hndN : (stepN g g.nodes.length s).Nodup := stepN_nodup g _ s hsd hnd
    have hle : (stepN g g.nodes.length s).length ≤ g.nodes.length :=
      (List.subperm_of_subset hndN hsubN).length_le
    omega

lemma stepN_fix_propagate (g : Graph) (s : List Node) (j : Nat)
    (hfix : ∀ x, x ∈ adjStep g (stepN g j s) ↔ x ∈ stepN g j s) :
    ∀ k, j ≤ k → ∀ x, x ∈ stepN g k s ↔ x ∈ stepN g j s := by
  intro k hk
  induction k, hk using Nat.le_induction with
  | base => intro x; exact Iff.rfl
  | succ m hm ih =>
    intro x
    rw [stepN_succ_out]
    rw [adjStep_congr g (stepN g m s) (stepN g j s) ih]
    exact hfix x

lemma seed_subset_nodes (g : Graph) (v : Node) :
    g.nodes.filter (fun u => decide (u = v)) ⊆ g.nodes :=
  fun _ hx => (List.mem_filter.mp hx).1

lemma mem_seed (g : Graph) (v u : Node) :
    u ∈ g.nodes.filter (fun u => decide (u = v)) ↔ u ∈ g.nodes ∧ u = v := by
  simp [List.mem_filter]

lemma reachSet_subset_nodes (g : Graph) (v : Node) : reachSet g v ⊆ g.nodes :=
  stepN_subset_nodes g g.nodes.length _ (seed_subset_nodes g v)

lemma reachSet_nodup (g : Graph) (v : Node) (hnd : g.nodes.Nodup) :
    (reachSet g v).Nodup :=
  stepN_nodup g g.nodes.length _ (hnd.filter _) hnd

lemma mem_reachSet_self (g : Graph) (v : Node) (hv : v ∈ g.nodes) :
    v ∈ reachSet g v := by
  apply subset_stepN g g.nodes.length _ (seed_subset_nodes g v)
  exact (mem_seed g v v).mpr ⟨hv, rfl⟩

lemma reachSet_closed (g : Graph) (v : Node) (hv : v ∈ g.nodes) (hnd : g.nodes.Nodup) :
    ∀ x, x ∈ reachSet g v → ∀ y, g.adj x y = true → y ∈ g.nodes → y ∈ reachSet g v := by
  intro x hx y hadj hy
  have hseedsub := seed_subset_nodes g v
  have hseednd : (g.nodes.filter (fun u => decide (u = v))).Nodup := hnd.filter _
  have hseedlen : 1 ≤ (g.nodes.filter (fun u => decide (u = v))).length := by
    have hvm : v ∈ g.nodes.filter (fun u => decide (u = v)) := (mem_seed g v v).mpr ⟨hv, rfl⟩
    have := List.length_pos_of_mem hvm
    omega
  obtain ⟨j, hj, hfix⟩ := stepN_exists_fixpoint g _ hseedsub hseednd hnd hseedlen
  have hprop := stepN_fix_propagate g _ j hfix g.nodes.length hj
  have hxj : x ∈ stepN g j (g.nodes.filter (fun u => decide (u = v))) := (hprop x).mp hx
  have hyadj : y ∈ adjStep g (stepN g j (g.nodes.filter (fun u => decide (u = v)))) :=
    (mem_adjStep g _ y).mpr ⟨hy, Or.inr ⟨x, hxj, hadj⟩⟩
  have hyj := (hfix y).mp hyadj
  exact (hprop y).mpr hyj

lemma stepN_sound (g : Graph) (v : Node) (n : Nat) :
    ∀ (s : List Node), (∀ y, y ∈ s → Reaches g v y) →
      ∀ x, x ∈ stepN g n s → Reaches g v x := by
  induction n with
  | zero => intro s hstart x hx; exact hstart x hx
  | succ m ih =>
    intro s hstart x hx
    apply ih (adjStep g s) _ x hx
    intro y hy
    rcases (mem_adjStep g s y).mp hy with ⟨hynodes, hcase⟩
    rcases hcase with hys | ⟨u, hu, hadj⟩
    · exact hstart y hys
    · exact Relation.ReflTransGen.tail (hstart u hu) ⟨hadj, hynodes⟩

lemma reachSet_sound (g : Graph) (v : Node) :
    ∀ x, x ∈ reachSet g v → Reaches g v x := by
  intro x hx
  apply stepN_sound g v g.nodes.length _ _ x hx
  intro y hy
  rw [(mem_seed g v y).mp hy |>.2]
  exact Relation.ReflTransGen.refl

lemma reachSet_complete (g : Graph) (v : Node) (hv : v ∈ g.nodes) (hnd : g.nodes.Nodup) :
    ∀ x, Reaches g v x → x ∈ reachSet g v := by
  intro x hx
  induction hx with
  | refl => exact mem_reachSet_self g v hv
  | tail hprev hstep ih =>
    exact reachSet_closed g v hv hnd _ ih _ hstep.1 hstep.2

lemma mem_reachSet_iff (g : Graph) (v : Node) (hv : v ∈ g.nodes) (hnd : g.nodes.Nodup) :
    ∀ x, x ∈ reachSet g v ↔ x ∈ g.nodes ∧ Reaches g v x := by
  intro x
  constructor
  · intro hx
    exact ⟨reachSet_subset_nodes g v hx, reachSet_sound g v x hx⟩
  · intro hx
    exact reachSet_complete g v hv hnd x hx.2

lemma reaches_mem_nodes (h : Graph) (u b : Node) (hu : u ∈ h.nodes)
    (hr : Reaches h u b) : b ∈ h.nodes := by
  induction hr with
  | refl => exact hu
  | tail hprev hstep ih => exact hstep.2

lemma reaches_symm (h : Graph)
    (hsym : ∀ a, a ∈ h.nodes → ∀ b, b ∈ h.nodes → h.adj a b = h.adj b a)
    (u w : Node) (hu : u ∈ h.nodes) (hr : Reaches h u w) : Reaches h w u := by
  induction hr with
  | refl => exact Relation.ReflTransGen.refl
  | tail hprev hstep ih =>
    rename_i b c
    have hb : b ∈ h.nodes := reaches_mem_nodes h u b hu hprev
    have hadj : h.adj c b = true := by
      rw [hsym c hstep.2 b hb]
      exact hstep.1
    exact Relation.ReflTransGen.head ⟨hadj, hb⟩ ih

lemma mem_subgraphOn_nodes (g : Graph) (s : List Node) (x : Node) :
    x ∈ (subgraphOn g s).nodes ↔ x ∈ g.nodes ∧ x ∈ s := by
  simp [subgraphOn, List.mem_filter]

lemma subgraphOn_adj_iff (g : Graph) (s : List Node) (a b : Node) :
    (subgraphOn g s).adj a b = true ↔ a ∈ s ∧ b ∈ s ∧ g.adj a b = true := by
  simp [subgraphOn, Bool.and_assoc]

lemma reaches_in_subgraph (g : Graph) (v : Node) (hv : v ∈ g.nodes)
    (hnd : g.nodes.Nodup) :
    ∀ x, Reaches g v x → Reaches (subgraphOn g (reachSet g v)) v x := by
  intro x hx
  induction hx with
  | refl => exact Relation.ReflTransGen.refl
  | tail hprev hstep ih =>
    rename_i b c
    have hbreach : b ∈ reachSet g v := reachSet_complete g v hv hnd b hprev
    have hcreach : c ∈ reachSet g v :=
      reachSet_closed g v hv hnd b hbreach c hstep.1 hstep.2
    refine Relation.ReflTransGen.tail ih ⟨?_, ?_⟩
    · exact (subgraphOn_adj_iff g _ b c).mpr ⟨hbreach, hcreach, hstep.1⟩
    · exact (mem_subgraphOn_nodes g _ c).mpr ⟨hstep.2, hcreach⟩

lemma subgraphOn_reachSet_connected (g : Graph) (v : Node) (hv : v ∈ g.nodes)
    (hnd : g.nodes.Nodup)
    (hsym : ∀ a, a ∈ g.nodes → ∀ b, b ∈ g.nodes → g.adj a b = g.adj b a) :
    ConnectedGraph (subgraphOn g (reachSet g v)) := by
  intro u hu w hw
  obtain ⟨hun, hus⟩ := (mem_subgraphOn_nodes g _ u).mp hu
  obtain ⟨hwn, hws⟩ := (mem_subgraphOn_nodes g _ w).mp hw
  have hru : Reaches (subgraphOn g (reachSet g v)) v u :=
    reaches_in_subgraph g v hv hnd u (reachSet_sound g v u hus)
  have hrw : Reaches (subgraphOn g (reachSet g v)) v w :=
    reaches_in_subgraph g v hv hnd w (reachSet_sound g v w hws)
  have hsymSub : ∀ a, a ∈ (subgraphOn g (reachSet g v)).nodes →
      ∀ b, b ∈ (subgraphOn g (reachSet g v)).nodes →
      (subgraphOn g (reachSet g v)).adj a b = (subgraphOn g (reachSet g v)).adj b a := by
    intro a ha b hb
    obtain ⟨han, has⟩ := (mem_subgraphOn_nodes g _ a).mp ha
    obtain ⟨hbn, hbs⟩ := (mem_subgraphOn_nodes g _ b).mp hb
    show (decide (a ∈ reachSet g v) && decide (b ∈ reachSet g v) && g.adj a b) =
      (decide (b ∈ reachSet g v) && decide (a ∈ reachSet g v) && g.adj b a)
    rw [hsym a han b hbn]
    rw [Bool.and_comm (decide (a ∈ reachSet g v)) (decide (b ∈ reachSet g v))]
  have hvsub : v ∈ (subgraphOn g (reachSet g v)).nodes :=
    (mem_subgraphOn_nodes g _ v).mpr ⟨hv, mem_reachSet_self g v hv⟩
  exact Relation.ReflTransGen.trans
    (reaches_symm (subgraphOn g (reachSet g v)) hsymSub v u hvsub hru) hrw

lemma foldl_maxByLen_spec (cs : List (List Node)) :
    ∀ (c : List Node),
      (cs.foldl (fun best x => if best.length < x.length then x else best) c) ∈ c :: cs ∧
      ∀ d, d ∈ c :: cs →
        d.length ≤
          (cs.foldl (fun best x => if best.length < x.length then x else best) c).length := by
  induction cs with
  | nil =>
    intro c
    refine ⟨by simp, ?_⟩
    intro d hd
    rcases List.mem_cons.mp hd with h1 | h2
    · rw [h1]
      exact Nat.le_refl _
    · simp at h2
  | cons x cs ih =>
    intro c
    obtain ⟨hmem, hbound⟩ := ih (if c.length < x.length then x else c)
    constructor
    · rw [List.foldl_cons]
      rcases List.mem_cons.mp hmem with h1 | h2
      · rw [h1]
        by_cases hc : c.length < x.length
        · simp [hc]
        · simp [hc]
      · exact List.mem_cons_of_mem _ (List.mem_cons_of_mem _ h2)
    · intro d hd
      rw [List.foldl_cons]
      rcases List.mem_cons.mp hd with h1 | hd2
      · have hcc : c.length ≤ (if c.length < x.length then x else c).length := by
          by_cases hc : c.length < x.length
          · rw [if_pos hc]; omega
          · rw [if_neg hc]
        have hhead := hbound _ (List.mem_cons_self _ _)
        rw [h1]
        omega
      · rcases List.mem_cons.mp hd2 with h2 | h3
        · have hxx : x.length ≤ (if c.length < x.length then x else c).length := by
            by_cases hc : c.length < x.length
            · rw [if_pos hc]
            · rw [if_neg hc]; omega
          have hhead := hbound _ (List.mem_cons_self _ _)
          rw [h2]
          omega
        · exact hbound d (List.mem_cons_of_mem _ h3)

lemma maxByLen_spec (l : List (List Node)) (hne : l ≠ []) :
    ∃ b, maxByLen l = some b ∧ b ∈ l ∧ ∀ d, d ∈ l → d.length ≤ b.length := by
  cases l with
  | nil => exact absurd rfl hne
  | cons c cs =>
    obtain ⟨hmem, hbound⟩ := foldl_maxByLen_spec cs c
    exact ⟨_, rfl, hmem, hbound⟩

lemma componentsGo_mem (g : Graph) :
    ∀ (vs seen : List Node) (c : List Node), c ∈ componentsGo g vs seen →
      ∃ v, v ∈ vs ∧ c = reachSet g v := by
  intro vs
  induction vs with
  | nil =>
    intro seen c hc
    simp [componentsGo] at hc
  | cons v rest ih =>
    intro seen c hc
    by_cases hseen : v ∈ seen
    · simp only [componentsGo, if_pos hseen] at hc
      obtain ⟨u, hu, hcu⟩ := ih _ c hc
      exact ⟨u, List.mem_cons_of_mem _ hu, hcu⟩
    · simp only [componentsGo, if_neg hseen] at hc
      rcases List.mem_cons.mp hc with h1 | h2
      · exact ⟨v, List.mem_cons_self _ _, h1⟩
      · obtain ⟨u, hu, hcu⟩ := ih _ c h2
        exact ⟨u, List.mem_cons_of_mem _ hu, hcu⟩

lemma connected_components_ne_nil (g : Graph) (hne : g.nodes ≠ []) :
    connected_components g ≠ [] := by
  cases hcase : g.nodes with
  | nil => exact absurd hcase hne
  | cons v vs =>
    rw [connected_components, hcase]
    simp [componentsGo]

lemma filter_mem_length (g : Graph) (s : List Node) (hnd : g.nodes.Nodup)
    (hsub : s ⊆ g.nodes) (hsd : s.Nodup) :
    (g.nodes.filter (fun v => decide (v ∈ s))).length = s.length := by
  have h1 : (g.nodes.filter (fun v => decide (v ∈ s))) ⊆ s := by
    intro x hx
    have hfx := List.mem_filter.mp hx
    simpa using hfx.2
  have h2 : s ⊆ g.nodes.filter (fun v => decide (v ∈ s)) := by
    intro x hx
    exact List.mem_filter.mpr ⟨hsub hx, by simpa using hx⟩
  have hle1 := (List.subperm_of_subset (hnd.filter _) h1).length_le
  have hle2 := (List.subperm_of_subset hsd h2).length_le
  omega

/-- C6: on a non-empty graph with symmetric adjacency and distinct nodes,
`largest_connected_component` returns the induced-subgraph copy of a
component of maximal size: the result is a subgraph of the input (node and
edge restriction), its node count is the component's size, no component is
larger, the chosen node set is exactly a reachability class of the graph,
and the returned subgraph is connected. -/
theorem largest_connected_component_spec (g : Graph)
    (hne : g.nodes ≠ []) (hnd : g.nodes.Nodup)
    (hsym : ∀ a, a ∈ g.nodes → ∀ b, b ∈ g.nodes → g.adj a b = g.adj b a) :
    ∃ comp v, largest_connected_component g = Except.ok (subgraphOn g comp) ∧
      comp ∈ connected_components g ∧
      (∀ c, c ∈ connected_components g → c.length ≤ comp.length) ∧
      (subgraphOn g comp).nodes.length = comp.length ∧
      (∀ x, x ∈ (subgraphOn g comp).nodes → x ∈ g.nodes) ∧
      (∀ a b, (subgraphOn g comp).adj a b = true → g.adj a b = true) ∧
      v ∈ g.nodes ∧ (∀ x, x ∈ comp ↔ x ∈ g.nodes ∧ Reaches g v x) ∧
      ConnectedGraph (subgraphOn g comp) := by
  obtain ⟨b, hmax, hbm, hbound⟩ := maxByLen_spec (connected_components g)
    (connected_components_ne_nil g hne)
  obtain ⟨v, hv, hbv⟩ :=
    componentsGo_mem g g.nodes [] b (show b ∈ componentsGo g g.nodes [] from hbm)
  subst hbv
  refine ⟨reachSet g v, v, ?_, hbm, hbound, ?_, ?_, ?_, hv, ?_, ?_⟩
  · show (match maxByLen (connected_components g) with
      | none => Except.error PyError.valueError
      | some lcc => Except.ok (subgraphOn g lcc)) =
        Except.ok (subgraphOn g (reachSet g v))
    rw [hmax]
  · exact filter_mem_length g _ hnd (reachSet_subset_nodes g v) (reachSet_nodup g v hnd)
  · intro x hx
    exact ((mem_subgraphOn_nodes g _ x).mp hx).1
  · intro a b hab
    exact ((subgraphOn_adj_iff g _ a b).mp hab).2.2
  · exact mem_reachSet_iff g v hv hnd
  · exact subgraphOn_reachSet_connected g v hv hnd hsym

/-- C6 witness: the theorem applied to the concrete graph with nodes
0, 1, 2, one edge 0 - 1 and node 2 isolated: the largest component has
two nodes. -/
theorem largest_connected_component_spec_witness :
    gTwoComp.nodes ≠ [] ∧ gTwoComp.nodes.Nodup ∧
      (∀ a, a ∈ gTwoComp.nodes → ∀ b, b ∈ gTwoComp.nodes →
        gTwoComp.adj a b = gTwoComp.adj b a) ∧
      (∃ comp v, largest_connected_component gTwoComp = Except.ok (subgraphOn gTwoComp comp) ∧
        comp ∈ connected_components gTwoComp ∧
        (∀ c, c ∈ connected_components gTwoComp → c.length ≤ comp.length) ∧
        (subgraphOn gTwoComp comp).nodes.length = comp.length ∧
        (∀ x, x ∈ (subgraphOn gTwoComp comp).nodes → x ∈ gTwoComp.nodes) ∧
        (∀ a b, (subgraphOn gTwoComp comp).adj a b = true → gTwoComp.adj a b = true) ∧
        v ∈ gTwoComp.nodes ∧
        (∀ x, x ∈ comp ↔ x ∈ gTwoComp.nodes ∧ Reaches gTwoComp v x) ∧
        ConnectedGraph (subgraphOn gTwoComp comp)) :=
  ⟨by decide, by decide, by decide,
    largest_connected_component_spec gTwoComp (by decide) (by decide) (by decide)⟩
